import Mathlib

/-!
# Verification of the notflix subtitle parsing and synchronization core

This development embeds the subtitle core of the repository — the
dual-format (WebVTT/SRT) timestamp parser `parseTimestamp`, the cue parser
`parseSubtitles`, and the active-cue resolver inside `handleTimeUpdate` —
as executable Lean definitions, and proves the specified properties.

Modelling conventions:
* JavaScript strings are modelled as `List Char` (with `String` wrappers at
  the API boundary).  The JS string operations used by the source
  (`split(/\r?\n/)`, `split(':')`, `split('-->')`, `includes('-->')`,
  `trim()`, `replace(',', '.')`, `join(' ')`, `/^\d+$/` matching) are each
  given a direct executable model below.
* JS numbers are modelled as `Option ℚ`: `some q` is the finite value `q`
  and `none` stands for a non-finite result (`NaN`, or the `Infinity`
  produced by `parseFloat`).  Arithmetic propagates `none` and every
  comparison against `none` is `false`, exactly as for `NaN` in JS.
  Binary-floating-point rounding is not modelled; all timestamp arithmetic
  in the source stays within small decimal fractions.
* `parseInt(s, 10)` / `parseFloat(s)` are modelled faithfully: leading
  whitespace is skipped, an optional sign is read, the longest numeric
  prefix is consumed and any trailing garbage is ignored; if no digits are
  found the result is `none` (NaN).
-/

namespace Notflix

/-- Whitespace test used for `trim()` / numeric-prefix skipping: space and
the ASCII control whitespace range (tab, LF, VT, FF, CR).  This covers every
whitespace character that can occur in the ASCII subtitle inputs the source
handles. -/
def isWs (c : Char) : Bool := c.toNat == 32 || (9 ≤ c.toNat && c.toNat ≤ 13)

/-- ASCII digit test, the `\d` of the `/^\d+$/` regex in the source. -/
def isDigitC (c : Char) : Bool := 48 ≤ c.toNat && c.toNat ≤ 57

/-- Model of `String.prototype.trim`: drop whitespace from both ends. -/
def trimL (l : List Char) : List Char :=
  (((l.dropWhile isWs).reverse).dropWhile isWs).reverse

/-- Helper for the splitting functions: prepend a character to the first
piece of a split result. -/
def consHead (c : Char) : List (List Char) → List (List Char)
  | [] => [[c]]
  | h :: t => (c :: h) :: t

/-- Model of `split(/\r?\n/)`: cut at each `"\r\n"` or `"\n"`; a lone
carriage return is not a separator. -/
def splitLines : List Char → List (List Char)
  | [] => [[]]
  | [c] => if c = '\n' then [[], []] else [[c]]
  | c1 :: c2 :: rest =>
    if c1 = '\n' then [] :: splitLines (c2 :: rest)
    else if c1 = '\r' ∧ c2 = '\n' then [] :: splitLines rest
    else consHead c1 (splitLines (c2 :: rest))

/-- Model of `split(sep)` for a single-character separator (the `split(':')`
of the source). -/
def splitChar (sep : Char) : List Char → List (List Char)
  | [] => [[]]
  | c :: t => if c = sep then [] :: splitChar sep t else consHead c (splitChar sep t)

/-- Model of `includes(sep)` for a nonempty separator string: some suffix of
the input starts with `sep`. -/
def containsSub (sep : List Char) : List Char → Bool
  | [] => false
  | c :: cs => sep.isPrefixOf (c :: cs) || containsSub sep cs

/-- Fuel-driven worker for `splitSub`; the fuel bounds the number of
consumed characters, so `fuel = length` is always enough. -/
def splitSubAux (sep : List Char) : ℕ → List Char → List (List Char)
  | _, [] => [[]]
  | 0, l => [l]
  | fuel + 1, c :: cs =>
    if sep.isPrefixOf (c :: cs) then
      [] :: splitSubAux sep fuel ((c :: cs).drop sep.length)
    else
      consHead c (splitSubAux sep fuel cs)

/-- Model of `split(sep)` for a multi-character separator (the
`split('-->')` of the source): cut at each leftmost occurrence of `sep`. -/
def splitSub (sep l : List Char) : List (List Char) :=
  splitSubAux sep l.length l

/-- Model of `replace(pat, rep)` for one-character pattern and replacement:
JS `replace` with a string pattern replaces only the first occurrence. -/
def replaceFirst (pat rep : Char) : List Char → List Char
  | [] => []
  | c :: t => if c = pat then rep :: t else c :: replaceFirst pat rep t

/-- Model of `join(' ')`. -/
def joinSp : List (List Char) → List Char
  | [] => []
  | [l] => l
  | l :: l' :: t => l ++ ' ' :: joinSp (l' :: t)

/-- Value of a digit string (most significant digit first). -/
def digitsVal (l : List Char) : ℕ :=
  l.foldl (fun a c => 10 * a + (c.toNat - 48)) 0

/-- Exact rational addition, written through `mkRat` so that it evaluates
by kernel reduction (`Rat.add` itself is irreducible in Mathlib); the
lemma `ratAdd_eq` below shows it is ordinary addition on `ℚ`. -/
def ratAdd (a b : ℚ) : ℚ := mkRat (a.num * b.den + b.num * a.den) (a.den * b.den)

/-- Exact rational multiplication through `mkRat`; see `ratMul_eq`. -/
def ratMul (a b : ℚ) : ℚ := mkRat (a.num * b.num) (a.den * b.den)

theorem ratAdd_eq (a b : ℚ) : ratAdd a b = a + b := by
  have ha : ((a.den : ℚ)) ≠ 0 := by exact_mod_cast a.den_ne_zero
  have hb : ((b.den : ℚ)) ≠ 0 := by exact_mod_cast b.den_ne_zero
  rw [ratAdd, Rat.mkRat_eq_div]
  conv_rhs => rw [← Rat.num_div_den a, ← Rat.num_div_den b]
  rw [div_add_div _ _ ha hb]
  push_cast
  ring_nf

theorem ratMul_eq (a b : ℚ) : ratMul a b = a * b := by
  rw [ratMul, Rat.mkRat_eq_div]
  conv_rhs => rw [← Rat.num_div_den a, ← Rat.num_div_den b]
  rw [div_mul_div_comm]
  push_cast
  ring_nf

/-- Read an optional leading sign, returning the sign and the rest. -/
def readSign : List Char → ℤ × List Char
  | [] => (1, [])
  | c :: t => if c = '-' then (-1, t) else if c = '+' then (1, t) else (1, c :: t)

/-- Model of `parseInt(s, 10)`: skip leading whitespace, read an optional
sign and then the longest digit prefix; `none` (NaN) if there is none. -/
def jsParseInt (s : List Char) : Option ℚ :=
  let l := s.dropWhile isWs
  let sr := readSign l
  let ds := sr.2.takeWhile isDigitC
  if ds.isEmpty then none else some (mkRat (sr.1 * (digitsVal ds : ℕ)) 1)

/-- Ten to an integer power, as a rational. -/
def powTen (z : ℤ) : ℚ :=
  if 0 ≤ z then mkRat ((10 : ℤ) ^ z.toNat) 1 else mkRat 1 (10 ^ (-z).toNat)

/-- Read the optional exponent part (`e`/`E`, optional sign, digits) of a
JS float literal; an incomplete exponent contributes nothing. -/
def readExp : List Char → ℤ
  | [] => 0
  | c :: t =>
    if c = 'e' ∨ c = 'E' then
      let sr := readSign t
      let ds := sr.2.takeWhile isDigitC
      if ds.isEmpty then 0 else sr.1 * (digitsVal ds : ℕ)
    else 0

/-- Model of `parseFloat(s)`: skip leading whitespace, read an optional
sign, then the longest `digits[.digits][exponent]` prefix; trailing garbage
is ignored and `none` (NaN) results when no digits are found.  A literal
`Infinity` is also modelled as `none` (non-finite). -/
def jsParseFloat (s : List Char) : Option ℚ :=
  let l := s.dropWhile isWs
  let sr := readSign l
  if ("Infinity".toList).isPrefixOf sr.2 then none
  else
    let ip := sr.2.takeWhile isDigitC
    let r1 := sr.2.dropWhile isDigitC
    let fr : List Char × List Char :=
      match r1 with
      | '.' :: t => (t.takeWhile isDigitC, t.dropWhile isDigitC)
      | _ => ([], r1)
    if ip.isEmpty ∧ fr.1.isEmpty then none
    else
      let mant : ℚ :=
        mkRat (sr.1 * ((digitsVal ip : ℤ) * 10 ^ fr.1.length + (digitsVal fr.1 : ℕ)))
          (10 ^ fr.1.length)
      some (ratMul mant (powTen (readExp fr.2)))

/-- NaN-propagating addition of JS numbers. -/
def jsAdd : Option ℚ → Option ℚ → Option ℚ
  | some a, some b => some (ratAdd a b)
  | _, _ => none

/-- NaN-propagating multiplication of a JS number by a literal constant. -/
def jsMulc (a : Option ℚ) (k : ℚ) : Option ℚ := a.map (fun x => ratMul x k)

/-- JS `<=` on numbers: false whenever either side is non-finite (`NaN`). -/
def jsLe : Option ℚ → Option ℚ → Bool
  | some a, some b => decide (a ≤ b)
  | _, _ => false

/-- The separator string of a cue timing line. -/
def arrowChars : List Char := ['-', '-', '>']

/-- The WebVTT header token. -/
def webvttChars : List Char := ['W', 'E', 'B', 'V', 'T', 'T']

/-- Embedding of the source's `parseTimestamp` (identical in
`src/unnamed/part_001` lines 29–47 and `src/unnamed/part_003` lines 64–82):
normalize the first `','` to `'.'`, split on `':'`, and combine the
segments; any segment count other than 2 or 3 yields `0`. -/
def parseTimestampCL (timeString : List Char) : Option ℚ :=
  let normalizedTime := replaceFirst ',' '.' timeString
  let parts := splitChar ':' normalizedTime
  match parts with
  | [h, m, s] =>
    jsAdd (jsAdd (jsMulc (jsParseInt h) 3600) (jsMulc (jsParseInt m) 60)) (jsParseFloat s)
  | [m, s] => jsAdd (jsMulc (jsParseInt m) 60) (jsParseFloat s)
  | _ => some 0

/-- `parseTimestamp` on `String` input. -/
def parseTimestamp (timeString : String) : Option ℚ :=
  parseTimestampCL timeString.toList

/-- A parsed subtitle cue, the element type of the parser's output
(`{ startTime, endTime, text }` in the source). -/
structure Cue where
  startTime : Option ℚ
  endTime : Option ℚ
  text : String
deriving DecidableEq, Repr

/-- Test for an SRT cue-number line, the `/^\d+$/` match of the source. -/
def isDigitLine (l : List Char) : Bool := !l.isEmpty && l.all isDigitC

/-- Finalizing a cue: `currentCue.text = textBuffer.join(' ').trim()` before
the cue is pushed onto the output. -/
def finalizeCue (st en : Option ℚ) (buf : List (List Char)) : Cue :=
  { startTime := st, endTime := en, text := (trimL (joinSp buf)).asString }

/-- The trailing flush of `parseSubtitles`: after the loop, a cue still
being built is finalized and appended (`if (currentCue) { ... }`). -/
def flushCue : Option (Option ℚ × Option ℚ) → List (List Char) → List Cue
  | none, _ => []
  | some (st, en), buf => [finalizeCue st en buf]

/-- The main loop of `parseSubtitles` (`src/unnamed/part_001` lines 49–80):
state is the current cue's bounds (if one is being built) and the text
buffer; after the last line a pending cue is finalized. -/
def parseLines (isVTT : Bool) :
    List (List Char) → Option (Option ℚ × Option ℚ) → List (List Char) → List Cue
  | [], cur, buf => flushCue cur buf
  | line :: rest, cur, buf =>
    if isVTT = true ∧ line = webvttChars then parseLines isVTT rest cur buf
    else if isVTT = false ∧ isDigitLine line = true then parseLines isVTT rest cur buf
    else if containsSub arrowChars line = true then
      -- a cue already being built is finalized and pushed first (that is
      -- exactly `flushCue cur buf`), then a new cue starts with the two
      -- timestamp sides of the line and an empty buffer
      let parts := (splitSub arrowChars line).map parseTimestampCL
      let st := parts.getD 0 none
      let en := parts.getD 1 none
      flushCue cur buf ++ parseLines isVTT rest (some (st, en)) []
    else
      -- a text line is buffered only while a cue is being built
      parseLines isVTT rest cur (if cur.isSome then buf ++ [line] else buf)

/-- Line preprocessing of `parseSubtitles`: split on `/\r?\n/`, trim each
line, drop the lines that are empty after trimming. -/
def cleanLines (content : List Char) : List (List Char) :=
  ((splitLines content).map trimL).filter (fun l => !l.isEmpty)

/-- Embedding of the source's `parseSubtitles` (identical in
`src/unnamed/part_001` lines 12–83 and `src/unnamed/part_003` lines
47–118). -/
def parseSubtitlesCL (content : List Char) : List Cue :=
  let lines := cleanLines content
  let isVTT := (lines.headD []) = webvttChars
  parseLines isVTT lines none []

/-- `parseSubtitles` on `String` input. -/
def parseSubtitles (content : String) : List Cue :=
  parseSubtitlesCL content.toList

/-- The cue-window test of `handleTimeUpdate`
(`newCurrentTime >= sub.startTime && newCurrentTime <= sub.endTime`). -/
def cueMatches (t : ℚ) (c : Cue) : Bool :=
  jsLe c.startTime (some t) && jsLe (some t) c.endTime

/-- The active-cue resolution of `handleTimeUpdate`
(`src/unnamed/part_001` lines 260–263): the first cue of the sequence whose
closed window contains the current time gives the displayed text, and the
displayed text is empty when no cue matches. -/
def resolveActiveCue (subs : List Cue) (t : ℚ) : String :=
  match subs.find? (cueMatches t) with
  | some c => c.text
  | none => ""

/-- The spec's two-cue WebVTT demonstration input (§8). -/
def vttDemo : String :=
  "WEBVTT\n\n00:00:01.000 --> 00:00:02.000\nHello\n\n00:00:03.000 --> 00:00:04.500\nWorld"

/-- The cue sequence the demonstration input parses to. -/
def demoCues : List Cue :=
  [⟨some 1, some 2, "Hello"⟩, ⟨some 3, some (mkRat 9 2), "World"⟩]

/-! ## Renderings of a cue list in the two sibling formats

The spec's §8 relates "equivalent SRT input (with numeric cue-index lines
and `,` separators)" to "its WebVTT counterpart for identical
timings/text".  The renderers below construct exactly those two inputs
from one list of timings and texts. -/

/-- The character of a decimal digit. -/
def digitChar (d : ℕ) : Char := Char.ofNat (48 + d)

/-- Fuel-driven decimal rendering of a natural number (most significant
digit first); `fuel = n + 1` always suffices. -/
def natToCharsAux : ℕ → ℕ → List Char
  | 0, _ => []
  | fuel + 1, n =>
    if n < 10 then [digitChar n] else natToCharsAux fuel (n / 10) ++ [digitChar (n % 10)]

/-- Decimal rendering of a natural number. -/
def natToChars (n : ℕ) : List Char := natToCharsAux (n + 1) n

/-- Zero-pad a rendered number to at least two digits. -/
def pad2 (n : ℕ) : List Char := if n < 10 then '0' :: natToChars n else natToChars n

/-- Zero-pad a rendered number to at least three digits. -/
def pad3 (n : ℕ) : List Char :=
  if n < 10 then '0' :: '0' :: natToChars n
  else if n < 100 then '0' :: natToChars n else natToChars n

/-- A timestamp given by its components (hours, minutes, seconds,
milliseconds). -/
structure RawTime where
  h : ℕ
  m : ℕ
  s : ℕ
  ms : ℕ
deriving DecidableEq, Repr

/-- A cue to be rendered: start and stop timestamps plus the text line. -/
structure RawCue where
  start : RawTime
  stop : RawTime
  text : String
deriving DecidableEq, Repr

/-- Render a timestamp with the given fractional-seconds separator
(`'.'` for WebVTT, `','` for SRT). -/
def stampCL (sepC : Char) (t : RawTime) : List Char :=
  pad2 t.h ++ ':' :: (pad2 t.m ++ ':' :: (pad2 t.s ++ sepC :: pad3 t.ms))

/-- Render a cue timing line `start --> stop`. -/
def timingLineCL (sepC : Char) (c : RawCue) : List Char :=
  stampCL sepC c.start ++ ' ' :: '-' :: '-' :: '>' :: ' ' :: stampCL sepC c.stop

/-- One WebVTT cue block: timing line, then the text line. -/
def blockVTT (c : RawCue) : List Char := timingLineCL '.' c ++ '\n' :: c.text.toList

/-- One SRT cue block: numeric cue-index line, timing line, text line. -/
def blockSRT (i : ℕ) (c : RawCue) : List Char :=
  natToChars (i + 1) ++ '\n' :: (timingLineCL ',' c ++ '\n' :: c.text.toList)

/-- Join cue blocks with a blank line between consecutive blocks. -/
def joinBlocks : List (List Char) → List Char
  | [] => []
  | [b] => b
  | b :: b' :: t => b ++ '\n' :: '\n' :: joinBlocks (b' :: t)

/-- The WebVTT rendering of a cue list: `WEBVTT` header, blank line, cue
blocks separated by blank lines, `'.'` separators. -/
def renderVTT (cues : List RawCue) : String :=
  (webvttChars ++ '\n' :: '\n' :: joinBlocks (cues.map blockVTT)).asString

/-- The SRT cue blocks numbered from `k + 1` on. -/
def srtBlocksFrom (k : ℕ) : List RawCue → List (List Char)
  | [] => []
  | c :: t => blockSRT k c :: srtBlocksFrom (k + 1) t

/-- The SRT rendering of a cue list: numbered cue blocks separated by blank
lines, `','` separators, no header. -/
def renderSRT (cues : List RawCue) : String :=
  (joinBlocks (srtBlocksFrom 0 cues)).asString

/-- The demonstration cue list whose two renderings are the spec's §8
inputs. -/
def demoRawCues : List RawCue :=
  [⟨⟨0, 0, 1, 0⟩, ⟨0, 0, 2, 0⟩, "Hello"⟩, ⟨⟨0, 0, 3, 0⟩, ⟨0, 0, 4, 500⟩, "World"⟩]

/-! ## Lemmas about the string primitives -/

theorem trimL_eq_rdropWhile (l : List Char) :
    trimL l = List.rdropWhile isWs (l.dropWhile isWs) := rfl

/-- Dropping leading whitespace is invariant on a list whose head (if any)
is not whitespace. -/
theorem dropWhile_ws_of_head (l : List Char)
    (h : ∀ c, l.head? = some c → isWs c = false) : List.dropWhile isWs l = l := by
  cases l with
  | nil => rfl
  | cons c t => simp [List.dropWhile_cons, h c rfl]

theorem rdropWhile_ws_of_getLast (l : List Char)
    (h : ∀ c, l.getLast? = some c → isWs c = false) : List.rdropWhile isWs l = l := by
  rw [List.rdropWhile, dropWhile_ws_of_head, List.reverse_reverse]
  intro c hc
  rw [List.head?_reverse] at hc
  exact h c hc

/-- A list whose first and last characters are not whitespace is its own
trim. -/
theorem trimL_eq_self (l : List Char)
    (h1 : ∀ c, l.head? = some c → isWs c = false)
    (h2 : ∀ c, l.getLast? = some c → isWs c = false) : trimL l = l := by
  rw [trimL_eq_rdropWhile, dropWhile_ws_of_head l h1, rdropWhile_ws_of_getLast l h2]

theorem trimL_eq_self_of_all (l : List Char)
    (h : ∀ c ∈ l, isWs c = false) : trimL l = l := by
  apply trimL_eq_self
  · intro c hc
    exact h c (by exact List.mem_of_mem_head? hc)
  · intro c hc
    exact h c (by exact List.mem_of_mem_getLast? hc)

theorem mem_of_mem_trimL {c : Char} {l : List Char} (h : c ∈ trimL l) : c ∈ l := by
  rw [trimL_eq_rdropWhile, List.rdropWhile, List.mem_reverse] at h
  have h1 := List.Sublist.mem h (List.dropWhile_sublist isWs)
  rw [List.mem_reverse] at h1
  exact List.Sublist.mem h1 (List.dropWhile_sublist isWs)

/-- The head of a `dropWhile isWs` result is never whitespace. -/
theorem head?_dropWhile_ws (l : List Char) (c : Char)
    (h : (l.dropWhile isWs).head? = some c) : isWs c = false := by
  induction l with
  | nil => simp at h
  | cons d t ih =>
    rw [List.dropWhile_cons] at h
    by_cases hd : isWs d
    · rw [if_pos hd] at h
      exact ih h
    · rw [if_neg hd] at h
      simp only [List.head?_cons, Option.some_inj] at h
      subst h
      simpa using hd

/-- The last character of a trim is never whitespace. -/
theorem getLast?_trimL_ws (l : List Char) (c : Char)
    (h : (trimL l).getLast? = some c) : isWs c = false := by
  rw [trimL_eq_rdropWhile, List.rdropWhile, ← List.head?_reverse, List.reverse_reverse] at h
  exact head?_dropWhile_ws _ c h

/-- The first character of a trim is never whitespace. -/
theorem head?_trimL_ws (l : List Char) (c : Char)
    (h : (trimL l).head? = some c) : isWs c = false := by
  rw [trimL_eq_rdropWhile, List.rdropWhile, List.head?_reverse] at h
  obtain ⟨t, ht⟩ := @List.dropWhile_suffix _ ((l.dropWhile isWs).reverse) isWs
  have hne : List.dropWhile isWs (l.dropWhile isWs).reverse ≠ [] := by
    intro h0
    rw [h0] at h
    simp at h
  have h2 : ((l.dropWhile isWs).reverse).getLast? = some c := by
    rw [← ht, List.getLast?_append_of_ne_nil t hne]
    exact h
  rw [List.getLast?_reverse] at h2
  exact head?_dropWhile_ws l c h2

/-- The trim of a trim is the trim: `trimL` is idempotent. -/
theorem trimL_trimL (l : List Char) : trimL (trimL l) = trimL l :=
  trimL_eq_self (trimL l) (head?_trimL_ws l) (getLast?_trimL_ws l)

theorem trimL_nil : trimL [] = [] := rfl

/-! Lemmas about `splitLines`. -/

/-- `consHead` preserves "no piece contains the character `c0`" when the
prepended character is not `c0`. -/
theorem consHead_not_mem (c0 c : Char) (hc : c ≠ c0) (ls : List (List Char))
    (hls : ∀ x ∈ ls, c0 ∉ x) : ∀ x ∈ consHead c ls, c0 ∉ x := by
  cases ls with
  | nil =>
    intro x hx
    simp only [consHead, List.mem_singleton] at hx
    subst hx
    simp only [List.mem_singleton]
    exact fun h => hc h.symm
  | cons hd t =>
    intro x hx
    simp only [consHead, List.mem_cons] at hx
    rcases hx with rfl | hx
    · intro hmem
      simp only [List.mem_cons] at hmem
      rcases hmem with hcc | hmem
      · exact hc hcc.symm
      · exact hls hd (List.mem_cons_self _ _) hmem
    · exact hls x (List.mem_cons_of_mem _ hx)

/-- No piece produced by the line splitter contains a newline. -/
theorem splitLines_no_newline (l : List Char) :
    ∀ piece ∈ splitLines l, '\n' ∉ piece := by
  induction l using splitLines.induct with
  | case1 => simp [splitLines]
  | case2 => simp [splitLines]
  | case3 c hc =>
    intro piece hp
    rw [splitLines] at hp
    rw [if_neg hc] at hp
    simp only [List.mem_singleton] at hp
    subst hp
    simp only [List.mem_singleton]
    exact fun h => hc h.symm
  | case4 c2 rest ih =>
    intro piece hp
    rw [splitLines, if_pos rfl] at hp
    simp only [List.mem_cons] at hp
    rcases hp with rfl | hp
    · simp
    · exact ih piece hp
  | case5 c1 c2 rest h1 h2 ih =>
    intro piece hp
    rw [splitLines, if_neg h1, if_pos h2] at hp
    simp only [List.mem_cons] at hp
    rcases hp with rfl | hp
    · simp
    · exact ih piece hp
  | case6 c1 c2 rest h1 h2 ih =>
    intro piece hp
    rw [splitLines, if_neg h1, if_neg h2] at hp
    exact consHead_not_mem '\n' c1 h1 (splitLines (c2 :: rest)) ih piece hp

/-- A line without newlines is left whole by the line splitter. -/
theorem splitLines_single (a : List Char) (ha : '\n' ∉ a) : splitLines a = [a] := by
  induction a using splitLines.induct with
  | case1 => rfl
  | case2 => simp at ha
  | case3 c hc => rw [splitLines, if_neg hc]
  | case4 c2 rest ih => simp at ha
  | case5 c1 c2 rest h1 h2 ih =>
    exfalso
    exact ha (by simp [h2.2])
  | case6 c1 c2 rest h1 h2 ih =>
    rw [splitLines, if_neg h1, if_neg h2]
    rw [ih (fun h => ha (List.mem_cons_of_mem _ h))]
    rfl

/-- A leading newline always cuts an empty first line. -/
theorem splitLines_cons_newline (b : List Char) :
    splitLines ('\n' :: b) = [] :: splitLines b := by
  cases b with
  | nil => rfl
  | cons c t => rw [splitLines, if_pos rfl]

/-- Splitting at an explicit newline after a newline-free, CR-free line
yields that line followed by the split of the remainder. -/
theorem splitLines_append (a b : List Char) (ha : '\n' ∉ a) (hr : '\r' ∉ a) :
    splitLines (a ++ '\n' :: b) = a :: splitLines b := by
  induction a with
  | nil => rw [List.nil_append, splitLines_cons_newline]
  | cons c a' ih =>
    have hc1 : c ≠ '\n' := fun h => ha (by simp [h])
    have hc2 : c ≠ '\r' := fun h => hr (by simp [h])
    have ha' : '\n' ∉ a' := fun h => ha (List.mem_cons_of_mem _ h)
    have hr' : '\r' ∉ a' := fun h => hr (List.mem_cons_of_mem _ h)
    cases a' with
    | nil =>
      rw [List.cons_append, List.nil_append, splitLines, if_neg hc1,
        if_neg (by simp [hc2]), splitLines_cons_newline]
      rfl
    | cons d a'' =>
      rw [List.cons_append, List.cons_append, splitLines, if_neg hc1,
        if_neg (by exact fun h => hc2 h.1), ← List.cons_append, ih ha' hr']
      rfl

/-! Lemmas about `containsSub` and `splitSub`. -/

theorem isPrefixOf_append_self (s b : List Char) : s.isPrefixOf (s ++ b) = true := by
  induction s with
  | nil => simp [List.isPrefixOf]
  | cons c t ih => simp [List.isPrefixOf, ih]

theorem isPrefixOf_exists {s l : List Char} (h : s.isPrefixOf l = true) :
    ∃ t, l = s ++ t := by
  induction s generalizing l with
  | nil => exact ⟨l, rfl⟩
  | cons c s' ih =>
    cases l with
    | nil => simp [List.isPrefixOf] at h
    | cons d t =>
      simp only [List.isPrefixOf, Bool.and_eq_true, beq_iff_eq] at h
      obtain ⟨t', ht⟩ := ih h.2
      exact ⟨t', by rw [h.1, List.cons_append, ← ht]⟩

/-- The first character of the separator occurs in any string that
contains the separator. -/
theorem containsSub_head_mem {c0 : Char} {s l : List Char}
    (h : containsSub (c0 :: s) l = true) : c0 ∈ l := by
  induction l with
  | nil => simp [containsSub] at h
  | cons c cs ih =>
    rw [containsSub, Bool.or_eq_true] at h
    rcases h with h | h
    · simp only [List.isPrefixOf, Bool.and_eq_true, beq_iff_eq] at h
      exact h.1 ▸ List.mem_cons_self _ _
    · exact List.mem_cons_of_mem _ (ih h)

theorem containsSub_eq_false_of_not_mem {c0 : Char} {s l : List Char}
    (h : c0 ∉ l) : containsSub (c0 :: s) l = false := by
  by_contra hc
  exact h (containsSub_head_mem (by simpa using hc))

/-- A string of the shape `a ++ sep ++ b` contains `sep`. -/
theorem containsSub_append_self (c0 : Char) (s a b : List Char) :
    containsSub (c0 :: s) (a ++ (c0 :: s) ++ b) = true := by
  induction a with
  | nil =>
    rw [List.nil_append, List.cons_append, containsSub]
    have hp : (c0 :: s).isPrefixOf (c0 :: (s ++ b)) = true := by
      rw [← List.cons_append]
      exact isPrefixOf_append_self _ b
    rw [hp]
    rfl
  | cons c a' ih =>
    simp only [List.cons_append, List.append_assoc] at ih ⊢
    rw [containsSub, ih]
    simp

/-- A string that contains `sep` splits as `a ++ sep ++ b`. -/
theorem containsSub_exists {c0 : Char} {s l : List Char}
    (h : containsSub (c0 :: s) l = true) : ∃ a b, l = a ++ (c0 :: s) ++ b := by
  induction l with
  | nil => simp [containsSub] at h
  | cons c cs ih =>
    rw [containsSub, Bool.or_eq_true] at h
    by_cases hp : (c0 :: s).isPrefixOf (c :: cs) = true
    · obtain ⟨t, ht⟩ := isPrefixOf_exists hp
      exact ⟨[], t, by rw [ht, List.nil_append]⟩
    · rcases h with h | h
      · exact absurd h hp
      · obtain ⟨a, b, hab⟩ := ih h
        exact ⟨c :: a, b, by rw [hab]; rfl⟩

theorem splitSubAux_of_not_contains (sep : List Char) (fuel : ℕ) (l : List Char)
    (hf : l.length ≤ fuel) (h : containsSub sep l = false) :
    splitSubAux sep fuel l = [l] := by
  induction fuel generalizing l with
  | zero =>
    cases l with
    | nil => rfl
    | cons c cs => simp at hf
  | succ f ih =>
    cases l with
    | nil => rfl
    | cons c cs =>
      rw [containsSub, Bool.or_eq_false_iff] at h
      rw [splitSubAux, if_neg (by simp [h.1]), ih cs (by simpa using hf) h.2]
      rfl

theorem splitSub_of_not_contains (sep l : List Char) (h : containsSub sep l = false) :
    splitSub sep l = [l] :=
  splitSubAux_of_not_contains sep l.length l le_rfl h

/-- Splitting `a --> b` at the arrow, when neither side contains a dash,
yields exactly the two sides. -/
theorem splitSubAux_arrow_append (a b : List Char) (fuel : ℕ)
    (hf : (a ++ arrowChars ++ b).length ≤ fuel) (ha : '-' ∉ a) (hb : '-' ∉ b) :
    splitSubAux arrowChars fuel (a ++ arrowChars ++ b) = [a, b] := by
  induction a generalizing fuel with
  | nil =>
    rw [List.nil_append]
    cases fuel with
    | zero => simp [arrowChars] at hf
    | succ f =>
      have he : arrowChars ++ b = '-' :: ('-' :: '>' :: b) := rfl
      rw [he, splitSubAux]
      have hp : arrowChars.isPrefixOf ('-' :: '-' :: '>' :: b) = true :=
        isPrefixOf_append_self arrowChars b
      rw [if_pos hp]
      have hdrop : ('-' :: '-' :: '>' :: b).drop arrowChars.length = b := rfl
      rw [hdrop,
        splitSubAux_of_not_contains arrowChars f b
          (by simp only [List.nil_append, List.length_append, arrowChars,
                List.length_cons, List.length_nil] at hf; omega)
          (containsSub_eq_false_of_not_mem hb)]
  | cons c a' ih =>
    have hc : c ≠ '-' := fun h => ha (by simp [h])
    have ha' : '-' ∉ a' := fun h => ha (List.mem_cons_of_mem _ h)
    cases fuel with
    | zero => simp at hf
    | succ f =>
      simp only [List.cons_append] at hf ⊢
      rw [splitSubAux,
        if_neg (by
          simp only [arrowChars, List.isPrefixOf, Bool.and_eq_true, beq_iff_eq]
          intro h
          exact absurd h.1.symm hc)]
      rw [ih f (by simp only [List.length_cons] at hf; omega) ha']
      rfl

theorem splitSub_arrow_append (a b : List Char) (ha : '-' ∉ a) (hb : '-' ∉ b) :
    splitSub arrowChars (a ++ arrowChars ++ b) = [a, b] :=
  splitSubAux_arrow_append a b _ le_rfl ha hb

/-! Lemmas about `replaceFirst` and `splitChar`. -/

theorem replaceFirst_of_not_mem (pat rep : Char) (l : List Char) (h : pat ∉ l) :
    replaceFirst pat rep l = l := by
  induction l with
  | nil => rfl
  | cons c t ih =>
    rw [replaceFirst, if_neg (fun hc => h (by simp [hc])),
      ih (fun hc => h (List.mem_cons_of_mem _ hc))]

theorem replaceFirst_append (pat rep : Char) (a b : List Char) (h : pat ∉ a) :
    replaceFirst pat rep (a ++ pat :: b) = a ++ rep :: b := by
  induction a with
  | nil => rw [List.nil_append, replaceFirst, if_pos rfl, List.nil_append]
  | cons c a' ih =>
    rw [List.cons_append, replaceFirst, if_neg (fun hc => h (by simp [hc])),
      ih (fun hc => h (List.mem_cons_of_mem _ hc)), List.cons_append]

theorem splitChar_ne_nil (sep : Char) (l : List Char) : splitChar sep l ≠ [] := by
  cases l with
  | nil => simp [splitChar]
  | cons c t =>
    rw [splitChar]
    split
    · simp
    · cases h : splitChar sep t with
      | nil => simp [consHead]
      | cons x xs => simp [consHead]

theorem consHead_length_of_ne_nil (c : Char) (ls : List (List Char)) (h : ls ≠ []) :
    (consHead c ls).length = ls.length := by
  cases ls with
  | nil => exact absurd rfl h
  | cons x xs => rfl

/-- The number of the pieces of a single-character split is the number of
separator occurrences plus one. -/
theorem splitChar_length (sep : Char) (l : List Char) :
    (splitChar sep l).length = List.count sep l + 1 := by
  induction l with
  | nil => simp [splitChar]
  | cons c t ih =>
    rw [splitChar]
    by_cases hc : c = sep
    · rw [if_pos hc, List.length_cons, ih, List.count_cons]
      simp [hc]
    · rw [if_neg hc, consHead_length_of_ne_nil c _ (splitChar_ne_nil sep t), ih,
        List.count_cons]
      simp [hc]

/-- Replacing one character by another leaves the count of any third
character unchanged. -/
theorem count_replaceFirst (sep pat rep : Char) (l : List Char)
    (h1 : sep ≠ pat) (h2 : sep ≠ rep) :
    List.count sep (replaceFirst pat rep l) = List.count sep l := by
  induction l with
  | nil => rfl
  | cons c t ih =>
    rw [replaceFirst]
    by_cases hc : c = pat
    · rw [if_pos hc, List.count_cons, List.count_cons]
      simp [hc, Ne.symm h1, Ne.symm h2]
    · rw [if_neg hc, List.count_cons, List.count_cons, ih]

/-- The shared fallback of the timestamp parser: any segment count other
than 2 or 3 yields the value 0. -/
theorem parseTimestampCL_other (l : List Char)
    (h2 : (splitChar ':' (replaceFirst ',' '.' l)).length ≠ 2)
    (h3 : (splitChar ':' (replaceFirst ',' '.' l)).length ≠ 3) :
    parseTimestampCL l = some 0 := by
  rw [parseTimestampCL]
  rcases hp : splitChar ':' (replaceFirst ',' '.' l) with _ | ⟨a, _ | ⟨b, _ | ⟨c, tl⟩⟩⟩
  · rfl
  · rfl
  · exact absurd (by rw [hp]; rfl) h2
  · cases tl with
    | nil => exact absurd (by rw [hp]; rfl) h3
    | cons d tl' => rfl

/-! ## Lemmas about the rendered characters -/

theorem isDigitC_val {c : Char} (h : isDigitC c = true) : 48 ≤ c.toNat ∧ c.toNat ≤ 57 := by
  simpa [isDigitC] using h

theorem not_ws_of_digit {c : Char} (h : isDigitC c = true) : isWs c = false := by
  obtain ⟨h1, h2⟩ := isDigitC_val h
  simp only [isWs]
  simp only [Bool.or_eq_false_iff, beq_eq_false_iff_ne, ne_eq, Bool.and_eq_false_iff,
    decide_eq_false_iff_not, not_le]
  omega

theorem ne_char_of_digit {c : Char} (h : isDigitC c = true) (d : Char)
    (hd : d.toNat < 48 ∨ 57 < d.toNat) : c ≠ d := by
  obtain ⟨h1, h2⟩ := isDigitC_val h
  intro he
  subst he
  omega

theorem isDigitC_digitChar (d : ℕ) (hd : d < 10) : isDigitC (digitChar d) = true := by
  interval_cases d <;> decide

theorem natToCharsAux_digits (fuel : ℕ) : ∀ n, n < fuel →
    ∀ c ∈ natToCharsAux fuel n, isDigitC c = true := by
  induction fuel with
  | zero => intro n hn; omega
  | succ f ih =>
    intro n hn c hc
    rw [natToCharsAux] at hc
    by_cases h : n < 10
    · rw [if_pos h] at hc
      simp only [List.mem_singleton] at hc
      subst hc
      exact isDigitC_digitChar n h
    · rw [if_neg h] at hc
      rw [List.mem_append] at hc
      rcases hc with hc | hc
      · have hlt : n / 10 < n := Nat.div_lt_self (by omega) (by omega)
        exact ih (n / 10) (by omega) c hc
      · simp only [List.mem_singleton] at hc
        subst hc
        exact isDigitC_digitChar _ (Nat.mod_lt n (by omega))

theorem natToChars_digits (n : ℕ) : ∀ c ∈ natToChars n, isDigitC c = true :=
  natToCharsAux_digits (n + 1) n (Nat.lt_succ_self n)

theorem natToChars_ne_nil (n : ℕ) : natToChars n ≠ [] := by
  rw [natToChars, natToCharsAux]
  by_cases h : n < 10
  · rw [if_pos h]; simp
  · rw [if_neg h]; simp

theorem pad2_digits (n : ℕ) : ∀ c ∈ pad2 n, isDigitC c = true := by
  intro c hc
  rw [pad2] at hc
  by_cases h : n < 10
  · rw [if_pos h] at hc
    rcases List.mem_cons.1 hc with rfl | hc
    · decide
    · exact natToChars_digits n c hc
  · rw [if_neg h] at hc
    exact natToChars_digits n c hc

theorem pad3_digits (n : ℕ) : ∀ c ∈ pad3 n, isDigitC c = true := by
  intro c hc
  rw [pad3] at hc
  by_cases h : n < 10
  · rw [if_pos h] at hc
    rcases List.mem_cons.1 hc with rfl | hc
    · decide
    · rcases List.mem_cons.1 hc with rfl | hc
      · decide
      · exact natToChars_digits n c hc
  · rw [if_neg h] at hc
    by_cases h' : n < 100
    · rw [if_pos h'] at hc
      rcases List.mem_cons.1 hc with rfl | hc
      · decide
      · exact natToChars_digits n c hc
    · rw [if_neg h'] at hc
      exact natToChars_digits n c hc

theorem pad2_ne_nil (n : ℕ) : pad2 n ≠ [] := by
  rw [pad2]
  by_cases h : n < 10
  · rw [if_pos h]; simp
  · rw [if_neg h]; exact natToChars_ne_nil n

theorem pad3_ne_nil (n : ℕ) : pad3 n ≠ [] := by
  rw [pad3]
  by_cases h : n < 10
  · rw [if_pos h]; simp
  · rw [if_neg h]
    by_cases h' : n < 100
    · rw [if_pos h']; simp
    · rw [if_neg h']; exact natToChars_ne_nil n

/-- Every character of a rendered timestamp is a digit, a colon, or the
fractional separator. -/
theorem stampCL_chars (sepC : Char) (t : RawTime) :
    ∀ c ∈ stampCL sepC t, isDigitC c = true ∨ c = ':' ∨ c = sepC := by
  intro c hc
  simp only [stampCL, List.mem_append, List.mem_cons] at hc
  rcases hc with hc | rfl | hc | rfl | hc | rfl | hc
  · exact Or.inl (pad2_digits t.h c hc)
  · exact Or.inr (Or.inl rfl)
  · exact Or.inl (pad2_digits t.m c hc)
  · exact Or.inr (Or.inl rfl)
  · exact Or.inl (pad2_digits t.s c hc)
  · exact Or.inr (Or.inr rfl)
  · exact Or.inl (pad3_digits t.ms c hc)

/-- A character outside the digit range that is neither `':'` nor the
separator does not occur in a rendered timestamp. -/
theorem char_not_mem_stampCL (sepC : Char) (t : RawTime) (d : Char)
    (hd : d.toNat < 48 ∨ 57 < d.toNat) (hcol : d ≠ ':') (hsep : d ≠ sepC) :
    d ∉ stampCL sepC t := by
  intro hm
  rcases stampCL_chars sepC t d hm with h | h | h
  · exact absurd rfl (ne_char_of_digit h d hd)
  · exact hcol h
  · exact hsep h

theorem stampCL_ne_nil (sepC : Char) (t : RawTime) : stampCL sepC t ≠ [] := by
  simp [stampCL]

theorem colon_mem_stampCL (sepC : Char) (t : RawTime) : ':' ∈ stampCL sepC t := by
  rw [stampCL]
  exact List.mem_append.2 (Or.inr (List.mem_cons_self _ _))

theorem timingLineCL_eq (sepC : Char) (c : RawCue) :
    timingLineCL sepC c =
      (stampCL sepC c.start ++ [' ']) ++ arrowChars ++ (' ' :: stampCL sepC c.stop) := by
  simp [timingLineCL, arrowChars]

theorem containsSub_arrow_timingLine (sepC : Char) (c : RawCue) :
    containsSub arrowChars (timingLineCL sepC c) = true := by
  rw [timingLineCL_eq]
  exact containsSub_append_self '-' ['-', '>'] _ _

/-- Splitting a rendered timing line at `-->` gives exactly its two
timestamp sides (with their surrounding spaces). -/
theorem splitSub_timingLine (sepC : Char) (c : RawCue) (hs : sepC ≠ '-') :
    splitSub arrowChars (timingLineCL sepC c) =
      [stampCL sepC c.start ++ [' '], ' ' :: stampCL sepC c.stop] := by
  rw [timingLineCL_eq]
  apply splitSub_arrow_append
  · intro hm
    rcases List.mem_append.1 hm with hm | hm
    · exact char_not_mem_stampCL sepC c.start '-' (by decide) (by decide) (Ne.symm hs) hm
    · simp at hm
  · intro hm
    rcases List.mem_cons.1 hm with h | hm
    · exact absurd h (by decide)
    · exact char_not_mem_stampCL sepC c.stop '-' (by decide) (by decide) (Ne.symm hs) hm

/-- A rendered timing line starts and ends with a digit, so it is its own
trim. -/
theorem trimL_timingLineCL (sepC : Char) (c : RawCue) (hws : isWs sepC = false) :
    trimL (timingLineCL sepC c) = timingLineCL sepC c := by
  apply trimL_eq_self
  · intro ch hch
    rw [timingLineCL, List.head?_append_of_ne_nil _ (stampCL_ne_nil sepC c.start)] at hch
    rw [stampCL, List.head?_append_of_ne_nil _ (pad2_ne_nil c.start.h)] at hch
    exact not_ws_of_digit (pad2_digits c.start.h ch (List.mem_of_mem_head? hch))
  · intro ch hch
    rw [timingLineCL_eq, List.getLast?_append_of_ne_nil _ (by simp)] at hch
    have he : ' ' :: stampCL sepC c.stop = [' '] ++ stampCL sepC c.stop := rfl
    rw [he, List.getLast?_append_of_ne_nil _ (stampCL_ne_nil sepC c.stop)] at hch
    rcases stampCL_chars sepC c.stop ch (List.mem_of_mem_getLast? hch) with h | h | h
    · exact not_ws_of_digit h
    · rw [h]; decide
    · rw [h]; exact hws

theorem timingLine_ne_webvtt (sepC : Char) (c : RawCue) :
    timingLineCL sepC c ≠ webvttChars := by
  intro he
  have hcol : ':' ∈ timingLineCL sepC c := by
    rw [timingLineCL]
    exact List.mem_append.2 (Or.inl (colon_mem_stampCL sepC c.start))
  rw [he] at hcol
  exact absurd hcol (by decide)

theorem isDigitLine_timingLine (sepC : Char) (c : RawCue) :
    isDigitLine (timingLineCL sepC c) = false := by
  have hcol : ':' ∈ timingLineCL sepC c := by
    rw [timingLineCL]
    exact List.mem_append.2 (Or.inl (colon_mem_stampCL sepC c.start))
  rw [isDigitLine]
  have hall : (timingLineCL sepC c).all isDigitC = false := by
    by_contra hh
    rw [Bool.not_eq_false] at hh
    exact absurd (List.all_eq_true.1 hh ':' hcol) (by decide)
  rw [hall]
  simp

/-! Facts about SRT cue-index lines. -/

theorem isDigitLine_natToChars (n : ℕ) : isDigitLine (natToChars n) = true := by
  rw [isDigitLine]
  have h1 : (natToChars n).isEmpty = false := by
    cases h : natToChars n with
    | nil => exact absurd h (natToChars_ne_nil n)
    | cons c t => rfl
  have h2 : (natToChars n).all isDigitC = true := List.all_eq_true.2 (natToChars_digits n)
  rw [h1, h2]
  rfl

theorem trimL_natToChars (n : ℕ) : trimL (natToChars n) = natToChars n :=
  trimL_eq_self_of_all _ (fun c hc => not_ws_of_digit (natToChars_digits n c hc))

theorem natToChars_ne_webvtt (n : ℕ) : natToChars n ≠ webvttChars := by
  intro he
  have hW : 'W' ∈ natToChars n := by rw [he]; decide
  exact absurd (natToChars_digits n 'W' hW) (by decide)

theorem containsSub_arrow_natToChars (n : ℕ) :
    containsSub arrowChars (natToChars n) = false := by
  apply containsSub_eq_false_of_not_mem
  intro hm
  exact absurd (natToChars_digits n '-' hm) (by decide)

theorem containsSub_arrow_digitLine {l : List Char} (h : isDigitLine l = true) :
    containsSub arrowChars l = false := by
  apply containsSub_eq_false_of_not_mem
  intro hm
  rw [isDigitLine, Bool.and_eq_true] at h
  exact absurd (List.all_eq_true.1 h.2 '-' hm) (by decide)

/-! Normalization: an SRT timestamp and its WebVTT counterpart parse
identically, because the parser's first step maps both to the same
string. -/

theorem parseTimestampCL_congr {x y : List Char}
    (h : replaceFirst ',' '.' x = replaceFirst ',' '.' y) :
    parseTimestampCL x = parseTimestampCL y := by
  rw [parseTimestampCL, parseTimestampCL, h]

theorem comma_not_mem_inner (t : RawTime) :
    ',' ∉ pad2 t.h ++ ':' :: (pad2 t.m ++ ':' :: pad2 t.s) := by
  intro hm
  simp only [List.mem_append, List.mem_cons] at hm
  rcases hm with hm | hc | hm | hc | hm
  · exact absurd (pad2_digits t.h ',' hm) (by decide)
  · exact absurd hc (by decide)
  · exact absurd (pad2_digits t.m ',' hm) (by decide)
  · exact absurd hc (by decide)
  · exact absurd (pad2_digits t.s ',' hm) (by decide)

theorem comma_not_mem_stamp_dot (t : RawTime) : ',' ∉ stampCL '.' t :=
  char_not_mem_stampCL '.' t ',' (by decide) (by decide) (by decide)

theorem stamp_norm_left (t : RawTime) :
    replaceFirst ',' '.' (stampCL ',' t ++ [' ']) = stampCL '.' t ++ [' '] := by
  have e1 : stampCL ',' t ++ [' '] =
      (pad2 t.h ++ ':' :: (pad2 t.m ++ ':' :: pad2 t.s)) ++ ',' :: (pad3 t.ms ++ [' ']) := by
    simp [stampCL]
  have e2 : stampCL '.' t ++ [' '] =
      (pad2 t.h ++ ':' :: (pad2 t.m ++ ':' :: pad2 t.s)) ++ '.' :: (pad3 t.ms ++ [' ']) := by
    simp [stampCL]
  rw [e1, replaceFirst_append ',' '.' _ _ (comma_not_mem_inner t), e2]

theorem stamp_norm_right (t : RawTime) :
    replaceFirst ',' '.' (' ' :: stampCL ',' t) = ' ' :: stampCL '.' t := by
  have e1 : ' ' :: stampCL ',' t =
      (' ' :: (pad2 t.h ++ ':' :: (pad2 t.m ++ ':' :: pad2 t.s))) ++ ',' :: pad3 t.ms := by
    simp [stampCL]
  have e2 : ' ' :: stampCL '.' t =
      (' ' :: (pad2 t.h ++ ':' :: (pad2 t.m ++ ':' :: pad2 t.s))) ++ '.' :: pad3 t.ms := by
    simp [stampCL]
  have hA : ',' ∉ ' ' :: (pad2 t.h ++ ':' :: (pad2 t.m ++ ':' :: pad2 t.s)) := by
    intro hm
    rcases List.mem_cons.1 hm with h | h
    · exact absurd h (by decide)
    · exact comma_not_mem_inner t h
  rw [e1, replaceFirst_append ',' '.' _ _ hA, e2]

theorem replaceFirst_stamp_dot_left (t : RawTime) :
    replaceFirst ',' '.' (stampCL '.' t ++ [' ']) = stampCL '.' t ++ [' '] := by
  apply replaceFirst_of_not_mem
  intro hm
  rcases List.mem_append.1 hm with h | h
  · exact comma_not_mem_stamp_dot t h
  · simp at h

theorem replaceFirst_stamp_dot_right (t : RawTime) :
    replaceFirst ',' '.' (' ' :: stampCL '.' t) = ' ' :: stampCL '.' t := by
  apply replaceFirst_of_not_mem
  intro hm
  rcases List.mem_cons.1 hm with h | h
  · exact absurd h (by decide)
  · exact comma_not_mem_stamp_dot t h

theorem parseTimestamp_stamp_left (t : RawTime) :
    parseTimestampCL (stampCL ',' t ++ [' ']) = parseTimestampCL (stampCL '.' t ++ [' ']) :=
  parseTimestampCL_congr (by rw [stamp_norm_left, replaceFirst_stamp_dot_left])

theorem parseTimestamp_stamp_right (t : RawTime) :
    parseTimestampCL (' ' :: stampCL ',' t) = parseTimestampCL (' ' :: stampCL '.' t) :=
  parseTimestampCL_congr (by rw [stamp_norm_right, replaceFirst_stamp_dot_right])

/-! Concrete facts about the header token. -/

theorem containsSub_arrow_webvtt : containsSub arrowChars webvttChars = false := by decide

theorem isDigitLine_webvtt : isDigitLine webvttChars = false := by decide

theorem trimL_webvtt : trimL webvttChars = webvttChars := by decide

/-! Lemmas about `cleanLines`. -/

theorem cleanLines_append (a b : List Char) (ha : '\n' ∉ a) (hr : '\r' ∉ a) :
    cleanLines (a ++ '\n' :: b) =
      (if (trimL a).isEmpty then [] else [trimL a]) ++ cleanLines b := by
  rw [cleanLines, splitLines_append a b ha hr, List.map_cons, List.filter_cons]
  by_cases h : (trimL a).isEmpty = true
  · rw [if_neg (by simp [h]), if_pos h, List.nil_append, cleanLines]
  · rw [if_pos (by simp [h]), if_neg h, cleanLines]
    rfl

theorem cleanLines_single (a : List Char) (ha : '\n' ∉ a) :
    cleanLines a = if (trimL a).isEmpty then [] else [trimL a] := by
  rw [cleanLines, splitLines_single a ha, List.map_cons, List.map_nil, List.filter_cons]
  by_cases h : (trimL a).isEmpty = true
  · rw [if_neg (by simp [h]), if_pos h, List.filter_nil]
  · rw [if_pos (by simp [h]), if_neg h, List.filter_nil]

theorem cleanLines_nil : cleanLines [] = [] := rfl

/-- Every cleaned line is nonempty, already trimmed, and newline-free. -/
theorem cleanLines_mem (content : List Char) :
    ∀ l ∈ cleanLines content, l ≠ [] ∧ trimL l = l ∧ '\n' ∉ l := by
  intro l hl
  rw [cleanLines, List.mem_filter] at hl
  obtain ⟨hmem, hne⟩ := hl
  rw [List.mem_map] at hmem
  obtain ⟨piece, hpiece, rfl⟩ := hmem
  refine ⟨by simpa using hne, trimL_trimL piece, ?_⟩
  intro hnl
  exact splitLines_no_newline content piece hpiece (mem_of_mem_trimL hnl)

/-! ## Lemmas about the parse loop -/

theorem flushCue_length (cur : Option (Option ℚ × Option ℚ)) (buf buf' : List (List Char)) :
    (flushCue cur buf).length = (flushCue cur buf').length := by
  cases cur with
  | none => rfl
  | some p =>
    rcases p with ⟨a, b⟩
    rfl

/-- Each processed line containing `-->` contributes exactly one cue to
the output, and nothing else does. -/
theorem parseLines_length (m : Bool) (lines : List (List Char)) :
    ∀ (cur : Option (Option ℚ × Option ℚ)) (buf : List (List Char)),
      (parseLines m lines cur buf).length =
        lines.countP (containsSub arrowChars) + (flushCue cur buf).length := by
  induction lines with
  | nil =>
    intro cur buf
    rw [parseLines]
    simp
  | cons line rest ih =>
    intro cur buf
    rw [parseLines, List.countP_cons]
    by_cases h1 : m = true ∧ line = webvttChars
    · rw [if_pos h1, ih]
      have hc : containsSub arrowChars line = false := h1.2 ▸ containsSub_arrow_webvtt
      simp [hc]
    · rw [if_neg h1]
      by_cases h2 : m = false ∧ isDigitLine line = true
      · rw [if_pos h2, ih]
        have hc : containsSub arrowChars line = false := containsSub_arrow_digitLine h2.2
        simp [hc]
      · rw [if_neg h2]
        by_cases h3 : containsSub arrowChars line = true
        · rw [if_pos h3, List.length_append, ih, h3]
          simp only [flushCue, List.length_singleton, if_true]
          omega
        · rw [if_neg h3, ih, flushCue_length cur _ buf]
          have hc : containsSub arrowChars line = false := by
            rwa [Bool.not_eq_true] at h3
          simp [hc]

/-- Every cue the loop emits takes its text from some list of nonempty,
trimmed, newline-free lines, joined with single spaces and trimmed. -/
theorem parseLines_text (m : Bool) (lines : List (List Char)) :
    ∀ (cur : Option (Option ℚ × Option ℚ)) (buf : List (List Char)),
      (∀ l ∈ lines, l ≠ [] ∧ trimL l = l ∧ '\n' ∉ l) →
      (∀ l ∈ buf, l ≠ [] ∧ trimL l = l ∧ '\n' ∉ l) →
      ∀ cue ∈ parseLines m lines cur buf,
        ∃ ls, (∀ l ∈ ls, l ≠ [] ∧ trimL l = l ∧ '\n' ∉ l) ∧
          cue.text = (trimL (joinSp ls)).asString := by
  induction lines with
  | nil =>
    intro cur buf _ hbuf cue hcue
    rw [parseLines] at hcue
    cases cur with
    | none => simp [flushCue] at hcue
    | some p =>
      rcases p with ⟨st, en⟩
      rw [flushCue] at hcue
      simp only [List.mem_singleton] at hcue
      subst hcue
      exact ⟨buf, hbuf, rfl⟩
  | cons line rest ih =>
    intro cur buf hlines hbuf cue hcue
    have hline := hlines line (List.mem_cons_self _ _)
    have hrest : ∀ l ∈ rest, l ≠ [] ∧ trimL l = l ∧ '\n' ∉ l :=
      fun l hl => hlines l (List.mem_cons_of_mem _ hl)
    rw [parseLines] at hcue
    by_cases h1 : m = true ∧ line = webvttChars
    · rw [if_pos h1] at hcue
      exact ih cur buf hrest hbuf cue hcue
    · rw [if_neg h1] at hcue
      by_cases h2 : m = false ∧ isDigitLine line = true
      · rw [if_pos h2] at hcue
        exact ih cur buf hrest hbuf cue hcue
      · rw [if_neg h2] at hcue
        by_cases h3 : containsSub arrowChars line = true
        · rw [if_pos h3] at hcue
          rcases List.mem_append.1 hcue with hcue | hcue
          · cases cur with
            | none => simp [flushCue] at hcue
            | some p =>
              rcases p with ⟨pst, pen⟩
              rw [flushCue] at hcue
              simp only [List.mem_singleton] at hcue
              subst hcue
              exact ⟨buf, hbuf, rfl⟩
          · exact ih _ _ hrest (by simp) cue hcue
        · rw [if_neg h3] at hcue
          refine ih _ _ hrest ?_ cue hcue
          intro l hl
          by_cases hs : cur.isSome = true
          · rw [if_pos hs] at hl
            rcases List.mem_append.1 hl with hl | hl
            · exact hbuf l hl
            · rw [List.mem_singleton] at hl
              subst hl
              exact hline
          · rw [if_neg hs] at hl
            exact hbuf l hl

/-! ## The rendered inputs, line by line -/

/-- The cleaned line a cue's text contributes: nothing when it trims to
empty, otherwise its trim. -/
def textLinesOf (text : String) : List (List Char) :=
  if (trimL text.toList).isEmpty then [] else [trimL text.toList]

/-- The cleaned lines of the WebVTT rendering, after the header. -/
def vttLines : List RawCue → List (List Char)
  | [] => []
  | c :: t => timingLineCL '.' c :: (textLinesOf c.text ++ vttLines t)

/-- The cleaned lines of the SRT rendering, cue indices from `k + 1` on. -/
def srtLines : ℕ → List RawCue → List (List Char)
  | _, [] => []
  | k, c :: t =>
    natToChars (k + 1) :: timingLineCL ',' c :: (textLinesOf c.text ++ srtLines (k + 1) t)

/-- The cue that parsing a rendered cue block produces. -/
def expectedCue (sepC : Char) (c : RawCue) : Cue :=
  { startTime := parseTimestampCL (stampCL sepC c.start ++ [' '])
  , endTime := parseTimestampCL (' ' :: stampCL sepC c.stop)
  , text := (trimL c.text.toList).asString }

/-- The conditions under which a cue text renders back to itself in both
formats: it is a single line, contains no `-->`, and its trim is neither
the WebVTT header token nor an SRT cue-number line. -/
def goodText (text : String) : Prop :=
  '\n' ∉ text.toList ∧ '\r' ∉ text.toList ∧
    containsSub arrowChars text.toList = false ∧
    trimL text.toList ≠ webvttChars ∧
    isDigitLine (trimL text.toList) = false

instance decidableGoodText (text : String) : Decidable (goodText text) := by
  unfold goodText
  infer_instance

/-- The trim of a list is an infix of the list. -/
theorem trimL_infix (l : List Char) : ∃ s t, l = s ++ trimL l ++ t := by
  obtain ⟨s, hs⟩ := @List.dropWhile_suffix _ l isWs
  obtain ⟨t', ht⟩ := @List.dropWhile_suffix _ ((l.dropWhile isWs).reverse) isWs
  refine ⟨s, t'.reverse, ?_⟩
  have h2 : l.dropWhile isWs =
      (List.dropWhile isWs (l.dropWhile isWs).reverse).reverse ++ t'.reverse := by
    have h3 := congrArg List.reverse ht
    rw [List.reverse_append, List.reverse_reverse] at h3
    exact h3.symm
  calc l = s ++ l.dropWhile isWs := hs.symm
    _ = s ++ ((List.dropWhile isWs (l.dropWhile isWs).reverse).reverse ++ t'.reverse) := by
        rw [← h2]
    _ = s ++ trimL l ++ t'.reverse := by
        rw [trimL_eq_rdropWhile, List.rdropWhile, List.append_assoc]

/-- A string that does not contain a separator has a trim that does not
contain it either. -/
theorem containsSub_trimL_false {c0 : Char} {s x : List Char}
    (h : containsSub (c0 :: s) x = false) : containsSub (c0 :: s) (trimL x) = false := by
  by_contra hc
  rw [Bool.not_eq_false] at hc
  obtain ⟨a, b, hab⟩ := containsSub_exists hc
  obtain ⟨p, q, hpq⟩ := trimL_infix x
  rw [hab] at hpq
  have hx : containsSub (c0 :: s) x = true := by
    rw [hpq]
    have e : p ++ (a ++ (c0 :: s) ++ b) ++ q = (p ++ a) ++ (c0 :: s) ++ (b ++ q) := by
      simp [List.append_assoc]
    rw [e]
    exact containsSub_append_self c0 s _ _
  rw [hx] at h
  exact Bool.noConfusion h

theorem containsSub_arrow_trimL_false {x : List Char}
    (h : containsSub arrowChars x = false) : containsSub arrowChars (trimL x) = false :=
  @containsSub_trimL_false '-' ['-', '>'] x h

/-- Processing a cue's text block only moves it into the buffer. -/
theorem parseLines_textBlock (m : Bool) (text : String) (L : List (List Char))
    (st en : Option ℚ)
    (harr : containsSub arrowChars text.toList = false)
    (hskip1 : ¬(m = true ∧ trimL text.toList = webvttChars))
    (hskip2 : ¬(m = false ∧ isDigitLine (trimL text.toList) = true)) :
    parseLines m (textLinesOf text ++ L) (some (st, en)) [] =
      parseLines m L (some (st, en)) (textLinesOf text) := by
  rw [textLinesOf]
  by_cases he : (trimL text.toList).isEmpty = true
  · rw [if_pos he, List.nil_append]
  · rw [if_neg he, List.cons_append, List.nil_append, parseLines, if_neg hskip1,
      if_neg hskip2,
      if_neg (by
        rw [containsSub_arrow_trimL_false harr]
        exact Bool.noConfusion)]
    rfl

/-- Finalizing a cue whose buffer is exactly its text block recovers the
trimmed text. -/
theorem finalize_textLinesOf (st en : Option ℚ) (text : String) :
    finalizeCue st en (textLinesOf text) = ⟨st, en, (trimL text.toList).asString⟩ := by
  rw [finalizeCue, textLinesOf]
  by_cases he : (trimL text.toList).isEmpty = true
  · rw [if_pos he]
    have h0 : trimL text.toList = [] := by simpa using he
    have h0' : trimL text.data = [] := h0
    simp [joinSp, trimL_nil, h0, h0']
  · rw [if_neg he]
    simp [joinSp, trimL_trimL]

/-- The WebVTT-mode loop turns each rendered cue block into its expected
cue. -/
theorem parseLines_vttLines (cues : List RawCue) (H : ∀ c ∈ cues, goodText c.text) :
    ∀ (cur : Option (Option ℚ × Option ℚ)) (buf : List (List Char)),
      parseLines true (vttLines cues) cur buf =
        flushCue cur buf ++ cues.map (expectedCue '.') := by
  induction cues with
  | nil =>
    intro cur buf
    rw [vttLines, parseLines]
    simp
  | cons c cs ih =>
    intro cur buf
    obtain ⟨hn, hr, harr, hweb, hdig⟩ := H c (List.mem_cons_self _ _)
    have hcs : ∀ x ∈ cs, goodText x.text := fun x hx => H x (List.mem_cons_of_mem _ hx)
    rw [vttLines, parseLines,
      if_neg (fun hh => timingLine_ne_webvtt '.' c hh.2),
      if_neg (fun hh => absurd hh.1 (by decide)),
      if_pos (containsSub_arrow_timingLine '.' c),
      splitSub_timingLine '.' c (by decide)]
    simp only [List.map_cons, List.map_nil, List.getD_cons_zero, List.getD_cons_succ]
    rw [parseLines_textBlock true c.text _ _ _ harr
        (fun hh => hweb hh.2) (fun hh => absurd hh.1 (by decide)),
      ih hcs]
    rw [flushCue, finalize_textLinesOf]
    rfl

/-- The SRT-mode loop turns each rendered cue block into its expected
cue, whatever the cue numbering starts at. -/
theorem parseLines_srtLines (cues : List RawCue) (H : ∀ c ∈ cues, goodText c.text) :
    ∀ (k : ℕ) (cur : Option (Option ℚ × Option ℚ)) (buf : List (List Char)),
      parseLines false (srtLines k cues) cur buf =
        flushCue cur buf ++ cues.map (expectedCue ',') := by
  induction cues with
  | nil =>
    intro k cur buf
    rw [srtLines, parseLines]
    simp
  | cons c cs ih =>
    intro k cur buf
    obtain ⟨hn, hr, harr, hweb, hdig⟩ := H c (List.mem_cons_self _ _)
    have hcs : ∀ x ∈ cs, goodText x.text := fun x hx => H x (List.mem_cons_of_mem _ hx)
    rw [srtLines, parseLines,
      if_neg (fun hh => absurd hh.1 (by decide)),
      if_pos ⟨rfl, isDigitLine_natToChars (k + 1)⟩,
      parseLines,
      if_neg (fun hh => absurd hh.1 (by decide)),
      if_neg (fun hh => absurd hh.2 (by rw [isDigitLine_timingLine]; exact Bool.noConfusion)),
      if_pos (containsSub_arrow_timingLine ',' c),
      splitSub_timingLine ',' c (by decide)]
    simp only [List.map_cons, List.map_nil, List.getD_cons_zero, List.getD_cons_succ]
    rw [parseLines_textBlock false c.text _ _ _ harr
        (fun hh => absurd hh.1 (by decide)) (fun hh => absurd hh.2 (by rw [hdig]; exact Bool.noConfusion)),
      ih hcs (k + 1)]
    rw [flushCue, finalize_textLinesOf]
    rfl

/-- A character that is not a digit, colon, separator, space, dash or
greater-than sign does not occur in a timing line. -/
theorem char_not_mem_timingLine (sepC : Char) (c : RawCue) (d : Char)
    (hd : d.toNat < 48 ∨ 57 < d.toNat) (hcol : d ≠ ':') (hsep : d ≠ sepC)
    (hsp : d ≠ ' ') (hdash : d ≠ '-') (hgt : d ≠ '>') :
    d ∉ timingLineCL sepC c := by
  intro hm
  rw [timingLineCL] at hm
  simp only [List.mem_append, List.mem_cons] at hm
  rcases hm with hm | h1 | h2 | h3 | h4 | h5 | hm
  · exact char_not_mem_stampCL _ _ d hd hcol hsep hm
  · exact hsp h1
  · exact hdash h2
  · exact hdash h3
  · exact hgt h4
  · exact hsp h5
  · exact char_not_mem_stampCL _ _ d hd hcol hsep hm

theorem timingLineCL_ne_nil (sepC : Char) (c : RawCue) : timingLineCL sepC c ≠ [] := by
  simp [timingLineCL]

/-- A clean block line (trimmed, nonempty, newline-free) passes through
`cleanLines` unchanged. -/
theorem cleanLines_line_append (l rest : List Char) (hn : '\n' ∉ l) (hr : '\r' ∉ l)
    (ht : trimL l = l) (hne : l ≠ []) :
    cleanLines (l ++ '\n' :: rest) = l :: cleanLines rest := by
  rw [cleanLines_append l rest hn hr, ht,
    if_neg (by cases hl : l with | nil => exact absurd hl hne | cons a t => simp [hl]),
    List.singleton_append]

theorem cleanLines_cons_newline (b : List Char) :
    cleanLines ('\n' :: b) = cleanLines b := by
  have h := cleanLines_append [] b (by simp) (by simp)
  simpa [trimL_nil] using h

/-- The cleaned lines of the joined WebVTT cue blocks. -/
theorem cleanLines_vttBlocks (cues : List RawCue) (H : ∀ c ∈ cues, goodText c.text) :
    cleanLines (joinBlocks (cues.map blockVTT)) = vttLines cues := by
  induction cues with
  | nil => rw [List.map_nil, joinBlocks, cleanLines_nil, vttLines]
  | cons c cs ih =>
    obtain ⟨hn, hr, harr, hweb, hdig⟩ := H c (List.mem_cons_self _ _)
    have hcs : ∀ x ∈ cs, goodText x.text := fun x hx => H x (List.mem_cons_of_mem _ hx)
    have hnT : '\n' ∉ timingLineCL '.' c :=
      char_not_mem_timingLine '.' c '\n' (by decide) (by decide) (by decide) (by decide)
        (by decide) (by decide)
    have hrT : '\r' ∉ timingLineCL '.' c :=
      char_not_mem_timingLine '.' c '\r' (by decide) (by decide) (by decide) (by decide)
        (by decide) (by decide)
    have htT : trimL (timingLineCL '.' c) = timingLineCL '.' c :=
      trimL_timingLineCL '.' c (by decide)
    have hneT := timingLineCL_ne_nil '.' c
    cases cs with
    | nil =>
      rw [List.map_cons, List.map_nil, joinBlocks, blockVTT,
        cleanLines_line_append _ _ hnT hrT htT hneT, cleanLines_single _ hn,
        vttLines, vttLines]
      simp [textLinesOf]
    | cons c' t =>
      have he : blockVTT c ++ '\n' :: '\n' :: joinBlocks (blockVTT c' :: t.map blockVTT) =
          timingLineCL '.' c ++ '\n' ::
            (c.text.toList ++ '\n' :: ('\n' :: joinBlocks (blockVTT c' :: t.map blockVTT))) := by
        simp [blockVTT]
      rw [List.map_cons, List.map_cons, joinBlocks, he,
        cleanLines_line_append _ _ hnT hrT htT hneT,
        cleanLines_append _ _ hn hr, cleanLines_cons_newline]
      have ih' := ih hcs
      rw [List.map_cons] at ih'
      simp [ih', vttLines, textLinesOf]

/-- The cleaned lines of the joined SRT cue blocks. -/
theorem cleanLines_srtBlocks (cues : List RawCue) (H : ∀ c ∈ cues, goodText c.text) :
    ∀ k : ℕ, cleanLines (joinBlocks (srtBlocksFrom k cues)) = srtLines k cues := by
  induction cues with
  | nil => intro k; rw [srtBlocksFrom, joinBlocks, cleanLines_nil, srtLines]
  | cons c cs ih =>
    intro k
    obtain ⟨hn, hr, harr, hweb, hdig⟩ := H c (List.mem_cons_self _ _)
    have hcs : ∀ x ∈ cs, goodText x.text := fun x hx => H x (List.mem_cons_of_mem _ hx)
    have hnI : '\n' ∉ natToChars (k + 1) :=
      fun hm => absurd (natToChars_digits _ _ hm) (by decide)
    have hrI : '\r' ∉ natToChars (k + 1) :=
      fun hm => absurd (natToChars_digits _ _ hm) (by decide)
    have hnT : '\n' ∉ timingLineCL ',' c :=
      char_not_mem_timingLine ',' c '\n' (by decide) (by decide) (by decide) (by decide)
        (by decide) (by decide)
    have hrT : '\r' ∉ timingLineCL ',' c :=
      char_not_mem_timingLine ',' c '\r' (by decide) (by decide) (by decide) (by decide)
        (by decide) (by decide)
    have htT : trimL (timingLineCL ',' c) = timingLineCL ',' c :=
      trimL_timingLineCL ',' c (by decide)
    have hneT := timingLineCL_ne_nil ',' c
    cases cs with
    | nil =>
      rw [srtBlocksFrom, srtBlocksFrom, joinBlocks, blockSRT,
        cleanLines_line_append _ _ hnI hrI (trimL_natToChars _) (natToChars_ne_nil _),
        cleanLines_line_append _ _ hnT hrT htT hneT, cleanLines_single _ hn,
        srtLines, srtLines]
      simp [textLinesOf]
    | cons c' t =>
      have he : ∀ J : List Char, blockSRT k c ++ '\n' :: '\n' :: J =
          natToChars (k + 1) ++ '\n' :: (timingLineCL ',' c ++ '\n' ::
            (c.text.toList ++ '\n' :: ('\n' :: J))) := by
        intro J
        simp [blockSRT]
      rw [srtBlocksFrom, srtBlocksFrom, joinBlocks, he,
        cleanLines_line_append _ _ hnI hrI (trimL_natToChars _) (natToChars_ne_nil _),
        cleanLines_line_append _ _ hnT hrT htT hneT,
        cleanLines_append _ _ hn hr, cleanLines_cons_newline]
      have ih' := ih hcs (k + 1)
      rw [srtBlocksFrom] at ih'
      simp [ih', srtLines, textLinesOf]

/-- Unfolding of `parseSubtitlesCL`. -/
theorem parseSubtitlesCL_eq (content : List Char) :
    parseSubtitlesCL content =
      parseLines (decide ((cleanLines content).headD [] = webvttChars))
        (cleanLines content) none [] := rfl

/-- Parsing the WebVTT rendering of a well-behaved cue list recovers the
expected cues. -/
theorem parse_renderVTT (cues : List RawCue) (H : ∀ c ∈ cues, goodText c.text) :
    parseSubtitles (renderVTT cues) = cues.map (expectedCue '.') := by
  have e : parseSubtitles (renderVTT cues) =
      parseSubtitlesCL (webvttChars ++ '\n' :: '\n' :: joinBlocks (cues.map blockVTT)) := rfl
  have hclean :
      cleanLines (webvttChars ++ '\n' :: '\n' :: joinBlocks (cues.map blockVTT)) =
        webvttChars :: vttLines cues := by
    rw [cleanLines_line_append _ _ (by decide) (by decide) trimL_webvtt (by decide),
      cleanLines_cons_newline, cleanLines_vttBlocks cues H]
  rw [e, parseSubtitlesCL_eq, hclean]
  have hd : decide ((webvttChars :: vttLines cues).headD [] = webvttChars) = true := by
    simp
  rw [hd, parseLines, if_pos ⟨rfl, rfl⟩, parseLines_vttLines cues H]
  rfl

/-- Parsing the SRT rendering of a well-behaved cue list recovers the
expected cues. -/
theorem parse_renderSRT (cues : List RawCue) (H : ∀ c ∈ cues, goodText c.text) :
    parseSubtitles (renderSRT cues) = cues.map (expectedCue ',') := by
  cases cues with
  | nil => rfl
  | cons c cs =>
    have e : parseSubtitles (renderSRT (c :: cs)) =
        parseSubtitlesCL (joinBlocks (srtBlocksFrom 0 (c :: cs))) := rfl
    rw [e, parseSubtitlesCL_eq, cleanLines_srtBlocks _ H 0]
    have hhead : (srtLines 0 (c :: cs)).headD [] = natToChars 1 := by
      rw [srtLines]
      rfl
    have hd : decide ((srtLines 0 (c :: cs)).headD [] = webvttChars) = false := by
      rw [hhead]
      exact decide_eq_false (natToChars_ne_webvtt 1)
    rw [hd, parseLines_srtLines _ H 0]
    rfl

/-- SRT and WebVTT renderings of the same timing parse identically. -/
theorem expectedCue_comma_dot (c : RawCue) : expectedCue ',' c = expectedCue '.' c := by
  rw [expectedCue, expectedCue, parseTimestamp_stamp_left, parseTimestamp_stamp_right]

/-! ## Resolver characterization and remaining helpers -/

theorem resolveActiveCue_nil (t : ℚ) : resolveActiveCue [] t = "" := rfl

theorem resolveActiveCue_cons_pos {t : ℚ} {c : Cue} {cs : List Cue}
    (h : cueMatches t c = true) : resolveActiveCue (c :: cs) t = c.text := by
  rw [resolveActiveCue, List.find?_cons_of_pos _ h]

theorem resolveActiveCue_cons_neg {t : ℚ} {c : Cue} {cs : List Cue}
    (h : ¬cueMatches t c = true) :
    resolveActiveCue (c :: cs) t = resolveActiveCue cs t := by
  rw [resolveActiveCue, resolveActiveCue, List.find?_cons_of_neg _ h]

/-- First-match characterization of the active-cue resolution: either no
cue window contains the time and the text is empty, or the result is the
text of the first matching cue. -/
theorem resolve_first_match (subs : List Cue) (t : ℚ) :
    ((∀ c ∈ subs, cueMatches t c = false) ∧ resolveActiveCue subs t = "") ∨
      ∃ i : ℕ, ∃ hi : i < subs.length,
        cueMatches t (subs.get ⟨i, hi⟩) = true ∧
        resolveActiveCue subs t = (subs.get ⟨i, hi⟩).text ∧
        ∀ j : ℕ, ∀ hj : j < subs.length, j < i →
          cueMatches t (subs.get ⟨j, hj⟩) = false := by
  induction subs with
  | nil => exact Or.inl ⟨by simp, rfl⟩
  | cons c cs ih =>
    by_cases hc : cueMatches t c = true
    · refine Or.inr ⟨0, by simp, by simpa using hc, ?_, ?_⟩
      · rw [resolveActiveCue_cons_pos hc]
        rfl
      · intro j hj hj0
        omega
    · have hcf : cueMatches t c = false := by rwa [Bool.not_eq_true] at hc
      have hres := @resolveActiveCue_cons_neg t c cs hc
      rcases ih with ⟨hall, he⟩ | ⟨i, hi, hm, he, hfirst⟩
      · refine Or.inl ⟨?_, by rw [hres]; exact he⟩
        intro x hx
        rcases List.mem_cons.1 hx with rfl | hx
        · exact hcf
        · exact hall x hx
      · refine Or.inr ⟨i + 1, by simpa using Nat.succ_lt_succ hi, by simpa using hm,
          by rw [hres, he]; rfl, ?_⟩
        intro j hj hji
        cases j with
        | zero => simpa using hcf
        | succ j' =>
          have hj' : j' < cs.length := by simpa using hj
          have := hfirst j' hj' (by omega)
          simpa using this

/-- A character of a space-joined buffer is a space or a character of one
of the buffered lines. -/
theorem mem_joinSp {c : Char} {ls : List (List Char)} (h : c ∈ joinSp ls) :
    c = ' ' ∨ ∃ l ∈ ls, c ∈ l := by
  induction ls with
  | nil => simp [joinSp] at h
  | cons l ls' ih =>
    cases ls' with
    | nil =>
      rw [joinSp] at h
      exact Or.inr ⟨l, List.mem_cons_self _ _, h⟩
    | cons l2 t =>
      rw [joinSp] at h
      rcases List.mem_append.1 h with h | h
      · exact Or.inr ⟨l, List.mem_cons_self _ _, h⟩
      · rcases List.mem_cons.1 h with rfl | h
        · exact Or.inl rfl
        · rcases ih h with h | ⟨x, hx, hcx⟩
          · exact Or.inl h
          · exact Or.inr ⟨x, List.mem_cons_of_mem _ hx, hcx⟩

theorem asString_toList (l : List Char) : (l.asString).toList = l := rfl

/-- Colon count of a WebVTT timestamp: exactly two. -/
theorem count_colon_pad2 (n : ℕ) : List.count ':' (pad2 n) = 0 := by
  rw [List.count_eq_zero]
  intro hm
  exact absurd (pad2_digits n ':' hm) (by decide)

theorem count_colon_pad3 (n : ℕ) : List.count ':' (pad3 n) = 0 := by
  rw [List.count_eq_zero]
  intro hm
  exact absurd (pad3_digits n ':' hm) (by decide)

theorem count_colon_stamp_dot (t : RawTime) : List.count ':' (stampCL '.' t) = 2 := by
  rw [stampCL]
  simp [List.count_cons, List.count_append, count_colon_pad2, count_colon_pad3]

/-! ## The cue builder with its source lines kept

To state which source lines belong to each cue, the spec's cue-building
algorithm (§4.2 steps 3–4) is written a second time with the one
difference that a finalized cue records its buffered source lines
themselves instead of their joined-and-trimmed text.  The refinement
theorem `parseLines_eq_parseBlocks` shows the source's loop is exactly
this builder followed by `join(' ')`-and-trim on each cue's own lines. -/

/-- A cue before text finalization: its bounds and the source lines
buffered for it, in order. -/
structure CueBlock where
  startTime : Option ℚ
  endTime : Option ℚ
  srcLines : List (List Char)
deriving DecidableEq, Repr

/-- The final flush, at the block level. -/
def flushBlock : Option (Option ℚ × Option ℚ) → List (List Char) → List CueBlock
  | none, _ => []
  | some (st, en), buf => [⟨st, en, buf⟩]

/-- The cue-building loop of §4.2, recording each cue's buffered source
lines: same skip rules, same `-->` handling, same buffering as
`parseLines`, but no joining. -/
def parseBlocks (isVTT : Bool) :
    List (List Char) → Option (Option ℚ × Option ℚ) → List (List Char) → List CueBlock
  | [], cur, buf => flushBlock cur buf
  | line :: rest, cur, buf =>
    if isVTT = true ∧ line = webvttChars then parseBlocks isVTT rest cur buf
    else if isVTT = false ∧ isDigitLine line = true then parseBlocks isVTT rest cur buf
    else if containsSub arrowChars line = true then
      let parts := (splitSub arrowChars line).map parseTimestampCL
      let st := parts.getD 0 none
      let en := parts.getD 1 none
      flushBlock cur buf ++ parseBlocks isVTT rest (some (st, en)) []
    else
      parseBlocks isVTT rest cur (if cur.isSome then buf ++ [line] else buf)

/-- Finalization of one block: the cue's text is the block's own source
lines joined with single spaces, then trimmed (§4.2 steps 3a and 4). -/
def blockCue (b : CueBlock) : Cue :=
  ⟨b.startTime, b.endTime, (trimL (joinSp b.srcLines)).asString⟩

/-- The cue blocks of an input: the builder run on the cleaned lines,
with the same format detection as `parseSubtitles`. -/
def cueBlocks (content : String) : List CueBlock :=
  parseBlocks (decide ((cleanLines content.toList).headD [] = webvttChars))
    (cleanLines content.toList) none []

/-- Refinement: the source's loop is the block builder followed by
per-cue join-and-trim of that cue's own lines. -/
theorem parseLines_eq_parseBlocks (m : Bool) (lines : List (List Char)) :
    ∀ (cur : Option (Option ℚ × Option ℚ)) (buf : List (List Char)),
      parseLines m lines cur buf = (parseBlocks m lines cur buf).map blockCue := by
  induction lines with
  | nil =>
    intro cur buf
    rw [parseLines, parseBlocks]
    cases cur with
    | none => rfl
    | some p =>
      rcases p with ⟨st, en⟩
      rfl
  | cons line rest ih =>
    intro cur buf
    rw [parseLines, parseBlocks]
    by_cases h1 : m = true ∧ line = webvttChars
    · rw [if_pos h1, if_pos h1, ih]
    · rw [if_neg h1, if_neg h1]
      by_cases h2 : m = false ∧ isDigitLine line = true
      · rw [if_pos h2, if_pos h2, ih]
      · rw [if_neg h2, if_neg h2]
        by_cases h3 : containsSub arrowChars line = true
        · rw [if_pos h3, if_pos h3, List.map_append]
          simp only [ih]
          cases cur with
          | none => rfl
          | some p =>
            rcases p with ⟨pst, pen⟩
            rfl
        · rw [if_neg h3, if_neg h3, ih]

/-- Every source line a block records satisfies any property holding for
the processed lines. -/
theorem parseBlocks_srcLines (P : List Char → Prop) (m : Bool)
    (lines : List (List Char)) :
    ∀ (cur : Option (Option ℚ × Option ℚ)) (buf : List (List Char)),
      (∀ l ∈ lines, P l) → (∀ l ∈ buf, P l) →
      ∀ b ∈ parseBlocks m lines cur buf, ∀ l ∈ b.srcLines, P l := by
  induction lines with
  | nil =>
    intro cur buf _ hbuf b hb
    rw [parseBlocks] at hb
    cases cur with
    | none => simp [flushBlock] at hb
    | some p =>
      rcases p with ⟨st, en⟩
      rw [flushBlock] at hb
      simp only [List.mem_singleton] at hb
      subst hb
      exact hbuf
  | cons line rest ih =>
    intro cur buf hlines hbuf b hb
    have hline := hlines line (List.mem_cons_self _ _)
    have hrest : ∀ l ∈ rest, P l := fun l hl => hlines l (List.mem_cons_of_mem _ hl)
    rw [parseBlocks] at hb
    by_cases h1 : m = true ∧ line = webvttChars
    · rw [if_pos h1] at hb
      exact ih cur buf hrest hbuf b hb
    · rw [if_neg h1] at hb
      by_cases h2 : m = false ∧ isDigitLine line = true
      · rw [if_pos h2] at hb
        exact ih cur buf hrest hbuf b hb
      · rw [if_neg h2] at hb
        by_cases h3 : containsSub arrowChars line = true
        · rw [if_pos h3] at hb
          rcases List.mem_append.1 hb with hb | hb
          · cases cur with
            | none => simp [flushBlock] at hb
            | some p =>
              rcases p with ⟨pst, pen⟩
              rw [flushBlock] at hb
              simp only [List.mem_singleton] at hb
              subst hb
              exact hbuf
          · exact ih _ _ hrest (by simp) b hb
        · rw [if_neg h3] at hb
          refine ih _ _ hrest ?_ b hb
          intro l hl
          by_cases hs : cur.isSome = true
          · rw [if_pos hs] at hl
            rcases List.mem_append.1 hl with hl | hl
            · exact hbuf l hl
            · rw [List.mem_singleton] at hl
              subst hl
              exact hline
          · rw [if_neg hs] at hl
            exact hbuf l hl

/-! ## The claims -/

/-- Claim C1: for every timestamp string, `parseTimestamp` returns, when
the comma-normalized string splits on `':'` into exactly 3 segments,
hours×3600 + minutes×60 + seconds (hours and minutes parsed as integers,
seconds as a float, with NaN propagating); for exactly 2 segments,
minutes×60 + seconds; and 0 for any other segment count.  In particular
`parseTimestamp "01:02:03.456" = 3723.456`,
`parseTimestamp "02:03,456" = 123.456`, and
`parseTimestamp "garbage" = 0`. -/
theorem claim_C1 :
    (∀ s : String,
      (∀ h m sec, splitChar ':' (replaceFirst ',' '.' s.toList) = [h, m, sec] →
        parseTimestamp s =
          jsAdd (jsAdd (jsMulc (jsParseInt h) 3600) (jsMulc (jsParseInt m) 60))
            (jsParseFloat sec)) ∧
      (∀ m sec, splitChar ':' (replaceFirst ',' '.' s.toList) = [m, sec] →
        parseTimestamp s = jsAdd (jsMulc (jsParseInt m) 60) (jsParseFloat sec)) ∧
      ((splitChar ':' (replaceFirst ',' '.' s.toList)).length ≠ 3 →
        (splitChar ':' (replaceFirst ',' '.' s.toList)).length ≠ 2 →
        parseTimestamp s = some 0)) ∧
    parseTimestamp "01:02:03.456" = some (mkRat 3723456 1000) ∧
    parseTimestamp "02:03,456" = some (mkRat 123456 1000) ∧
    parseTimestamp "garbage" = some 0 := by
  refine ⟨fun s => ⟨?_, ?_, ?_⟩, by decide, by decide, by decide⟩
  · intro h m sec hp
    simp only [parseTimestamp, parseTimestampCL, hp]
  · intro m sec hp
    simp only [parseTimestamp, parseTimestampCL, hp]
  · intro h3 h2
    exact parseTimestampCL_other s.toList h2 h3

theorem claim_C1_witness :
    parseTimestamp "1:2" = jsAdd (jsMulc (jsParseInt ['1']) 60) (jsParseFloat ['2']) :=
  (claim_C1.1 "1:2").2.1 ['1'] ['2'] (by decide)

/-- Claim C2: the active-cue resolution returns the text of the first cue
in sequence order whose closed window contains the current time, and the
empty string when none does; on the two-cue demonstration sequence it
gives "Hello" at 1.5, "" at 2.5, "World" at 4.5 and "" at -1. -/
theorem claim_C2 :
    (∀ (subs : List Cue) (t : ℚ),
      ((∀ c ∈ subs, cueMatches t c = false) ∧ resolveActiveCue subs t = "") ∨
        ∃ i : ℕ, ∃ hi : i < subs.length,
          cueMatches t (subs.get ⟨i, hi⟩) = true ∧
          resolveActiveCue subs t = (subs.get ⟨i, hi⟩).text ∧
          ∀ j : ℕ, ∀ hj : j < subs.length, j < i →
            cueMatches t (subs.get ⟨j, hj⟩) = false) ∧
    resolveActiveCue demoCues (mkRat 3 2) = "Hello" ∧
    resolveActiveCue demoCues (mkRat 5 2) = "" ∧
    resolveActiveCue demoCues (mkRat 9 2) = "World" ∧
    resolveActiveCue demoCues (-1) = "" :=
  ⟨resolve_first_match, by decide, by decide, by decide, by decide⟩

theorem claim_C2_witness :
    ((∀ c ∈ demoCues, cueMatches (mkRat 3 2) c = false) ∧
        resolveActiveCue demoCues (mkRat 3 2) = "") ∨
      ∃ i : ℕ, ∃ hi : i < demoCues.length,
        cueMatches (mkRat 3 2) (demoCues.get ⟨i, hi⟩) = true ∧
        resolveActiveCue demoCues (mkRat 3 2) = (demoCues.get ⟨i, hi⟩).text ∧
        ∀ j : ℕ, ∀ hj : j < demoCues.length, j < i →
          cueMatches (mkRat 3 2) (demoCues.get ⟨j, hj⟩) = false :=
  claim_C2.1 demoCues (mkRat 3 2)

/-- Claim C3: the spec's two-cue WebVTT input parses to exactly
`[{1.0, 2.0, "Hello"}, {3.0, 4.5, "World"}]`, in that order. -/
theorem claim_C3 : parseSubtitles vttDemo = demoCues := by decide

/-- Claim C4 fails as stated: a cue whose text is the digit-only line
`"42"` survives the WebVTT round trip but is dropped as a cue-number line
by the SRT parse, so the two renderings disagree. -/
theorem claim_C4_counterexample :
    parseSubtitles (renderSRT [⟨⟨0, 0, 1, 0⟩, ⟨0, 0, 2, 0⟩, "42"⟩]) ≠
      parseSubtitles (renderVTT [⟨⟨0, 0, 1, 0⟩, ⟨0, 0, 2, 0⟩, "42"⟩]) := by decide

/-- Claim C4 (amended): for every cue list whose texts are single-line,
contain no `-->`, and trim neither to the literal `WEBVTT` nor to a
digit-only string, the SRT rendering and the WebVTT rendering parse to the
same cue sequence. -/
theorem claim_C4 (cues : List RawCue) (H : ∀ c ∈ cues, goodText c.text) :
    parseSubtitles (renderSRT cues) = parseSubtitles (renderVTT cues) := by
  rw [parse_renderSRT cues H, parse_renderVTT cues H]
  exact List.map_congr_left (fun c _ => expectedCue_comma_dot c)

theorem claim_C4_witness :
    (∀ c ∈ demoRawCues, goodText c.text) ∧
      parseSubtitles (renderSRT demoRawCues) = parseSubtitles (renderVTT demoRawCues) :=
  ⟨by decide, claim_C4 demoRawCues (by decide)⟩

/-- Claim C5 fails as stated: on a 2-segment input with non-numeric
components the parser returns NaN (modelled `none`), not the number 0. -/
theorem claim_C5_counterexample : ¬parseTimestamp "a:b" = some 0 := by decide

/-- Claim C5 (amended): `parseTimestamp` is total (never throws) and
returns 0 exactly through the segment-count fallback — every input whose
comma-normalized split on `':'` has a segment count other than 2 or 3
yields 0 — but a 2- or 3-segment input with non-numeric components yields
NaN (modelled `none`), not 0, as `"a:b"` shows. -/
theorem claim_C5 :
    (∀ s : String,
      (splitChar ':' (replaceFirst ',' '.' s.toList)).length ≠ 2 →
      (splitChar ':' (replaceFirst ',' '.' s.toList)).length ≠ 3 →
      parseTimestamp s = some 0) ∧
    parseTimestamp "a:b" = none :=
  ⟨fun s h2 h3 => parseTimestampCL_other s.toList h2 h3, by decide⟩

theorem claim_C5_witness : parseTimestamp "garbage" = some 0 :=
  claim_C5.1 "garbage" (by decide) (by decide)

/-- The multi-line demonstration input of C6: the first cue is finalized
by the next timing line, the last at end of input. -/
def multiLineDemo : String :=
  "WEBVTT\n\n00:00:01.000 --> 00:00:02.000\nLine one\nLine two\n\n00:00:03.000 --> 00:00:04.000\nBye"

/-- Claim C6: each parsed cue's final text is that cue's own buffered
source lines — the cleaned lines attributed to it by the loop, each
individually trimmed and nonempty — joined with single spaces and the
result trimmed: the parser's output is exactly `blockCue` mapped over the
cue blocks, whose `srcLines` are the determined per-cue buffers, and this
covers both a cue finalized by the next timing line and the last cue
finalized at end of input (the two `flushBlock` sites).  Concretely, the
cue whose body is the lines "Line one" and "Line two" gets the text
"Line one Line two". -/
theorem claim_C6 :
    (∀ content : String,
      parseSubtitles content = (cueBlocks content).map blockCue ∧
      ∀ b ∈ cueBlocks content, ∀ l ∈ b.srcLines, l ≠ [] ∧ trimL l = l) ∧
    cueBlocks multiLineDemo =
      [⟨some 1, some 2, ["Line one".toList, "Line two".toList]⟩,
        ⟨some 3, some 4, ["Bye".toList]⟩] ∧
    parseSubtitles multiLineDemo =
      [⟨some 1, some 2, "Line one Line two"⟩, ⟨some 3, some 4, "Bye"⟩] := by
  refine ⟨fun content => ⟨?_, ?_⟩, by decide, by decide⟩
  · rw [parseSubtitles, parseSubtitlesCL_eq, cueBlocks]
    exact parseLines_eq_parseBlocks _ _ none []
  · intro b hb l hl
    rw [cueBlocks] at hb
    have hP := parseBlocks_srcLines (fun l => l ≠ [] ∧ trimL l = l)
      (decide ((cleanLines content.toList).headD [] = webvttChars))
      (cleanLines content.toList) none []
      (fun l hl => ⟨(cleanLines_mem content.toList l hl).1,
        (cleanLines_mem content.toList l hl).2.1⟩)
    exact hP (by simp) b hb l hl

theorem claim_C6_witness :
    parseSubtitles multiLineDemo = (cueBlocks multiLineDemo).map blockCue ∧
      ∀ b ∈ cueBlocks multiLineDemo, ∀ l ∈ b.srcLines, l ≠ [] ∧ trimL l = l :=
  claim_C6.1 multiLineDemo

/-- Claim C7: the empty string, and any input whose only nonempty line is
the `WEBVTT` header, parse to the empty cue sequence. -/
theorem claim_C7 :
    parseSubtitles "" = [] ∧
      ∀ content : String,
        cleanLines content.toList = [webvttChars] → parseSubtitles content = [] := by
  refine ⟨rfl, ?_⟩
  intro content h
  rw [parseSubtitles, parseSubtitlesCL_eq, h]
  decide

theorem claim_C7_witness :
    cleanLines (" \nWEBVTT\n\n".toList) = [webvttChars] ∧
      parseSubtitles " \nWEBVTT\n\n" = [] :=
  ⟨by decide, claim_C7.2 " \nWEBVTT\n\n" (by decide)⟩

/-- Claim C8: cue settings after the second timestamp of a timing line are
not stripped: the split at `-->` hands the whole right-hand portion
(timestamp and settings) to the timestamp parser, and since every WebVTT
cue setting is a `key:value` pair containing a colon, the end-timestamp
parse falls into the segment-count fallback and degrades to 0; concretely,
the cue of `00:00:01.000 --> 00:00:02.000 align:start` gets endTime 0. -/
theorem claim_C8 :
    (∀ (t1 t2 : RawTime) (settings : List Char), '-' ∉ settings →
      splitSub arrowChars
          (stampCL '.' t1 ++ ' ' :: '-' :: '-' :: '>' :: ' ' ::
            (stampCL '.' t2 ++ ' ' :: settings)) =
        [stampCL '.' t1 ++ [' '], ' ' :: (stampCL '.' t2 ++ ' ' :: settings)]) ∧
    (∀ (t2 : RawTime) (settings : List Char), ':' ∈ settings →
      parseTimestampCL (' ' :: (stampCL '.' t2 ++ ' ' :: settings)) = some 0) ∧
    parseSubtitles "WEBVTT\n\n00:00:01.000 --> 00:00:02.000 align:start\nHi" =
      [⟨some 1, some 0, "Hi"⟩] := by
  refine ⟨?_, ?_, by decide⟩
  · intro t1 t2 settings hset
    have he : stampCL '.' t1 ++ ' ' :: '-' :: '-' :: '>' :: ' ' ::
        (stampCL '.' t2 ++ ' ' :: settings) =
        (stampCL '.' t1 ++ [' ']) ++ arrowChars ++
          (' ' :: (stampCL '.' t2 ++ ' ' :: settings)) := by
      simp [arrowChars]
    rw [he]
    apply splitSub_arrow_append
    · intro hm
      rcases List.mem_append.1 hm with hm | hm
      · exact char_not_mem_stampCL '.' t1 '-' (by decide) (by decide) (by decide) hm
      · simp at hm
    · intro hm
      rcases List.mem_cons.1 hm with h | hm
      · exact absurd h (by decide)
      · rcases List.mem_append.1 hm with hm | hm
        · exact char_not_mem_stampCL '.' t2 '-' (by decide) (by decide) (by decide) hm
        · rcases List.mem_cons.1 hm with h | hm
          · exact absurd h (by decide)
          · exact hset hm
  · intro t2 settings hset
    apply parseTimestampCL_other
    · have hcount :
          List.count ':' (replaceFirst ',' '.' (' ' :: (stampCL '.' t2 ++ ' ' :: settings))) =
            List.count ':' (' ' :: (stampCL '.' t2 ++ ' ' :: settings)) :=
        count_replaceFirst ':' ',' '.' _ (by decide) (by decide)
      rw [splitChar_length, hcount]
      have hpos : 0 < List.count ':' settings := List.count_pos_iff.2 hset
      simp only [List.count_cons, List.count_append, count_colon_stamp_dot]
      omega
    · have hcount :
          List.count ':' (replaceFirst ',' '.' (' ' :: (stampCL '.' t2 ++ ' ' :: settings))) =
            List.count ':' (' ' :: (stampCL '.' t2 ++ ' ' :: settings)) :=
        count_replaceFirst ':' ',' '.' _ (by decide) (by decide)
      rw [splitChar_length, hcount]
      have hpos : 0 < List.count ':' settings := List.count_pos_iff.2 hset
      simp only [List.count_cons, List.count_append, count_colon_stamp_dot]
      omega

theorem claim_C8_witness :
    ':' ∈ "align:start".toList ∧
      parseTimestampCL
          (' ' :: (stampCL '.' ⟨0, 0, 2, 0⟩ ++ ' ' :: "align:start".toList)) = some 0 :=
  ⟨by decide, claim_C8.2.1 ⟨0, 0, 2, 0⟩ "align:start".toList (by decide)⟩

/-- Claim C9: the number of parsed cues equals the number of cleaned
input lines (trimmed, nonempty) that contain the substring `-->`. -/
theorem claim_C9 (content : String) :
    (parseSubtitles content).length =
      (cleanLines content.toList).countP (containsSub arrowChars) := by
  rw [parseSubtitles, parseSubtitlesCL_eq, parseLines_length]
  simp [flushCue]

theorem claim_C9_witness :
    (parseSubtitles vttDemo).length =
      (cleanLines vttDemo.toList).countP (containsSub arrowChars) :=
  claim_C9 vttDemo

/-- Claim C10: every parsed cue's text contains no newline and equals its
own trim. -/
theorem claim_C10 (content : String) :
    ∀ cue ∈ parseSubtitles content,
      '\n' ∉ cue.text.toList ∧ trimL cue.text.toList = cue.text.toList := by
  intro cue hcue
  rw [parseSubtitles, parseSubtitlesCL_eq] at hcue
  obtain ⟨ls, hls, he⟩ :=
    parseLines_text _ _ none [] (cleanLines_mem content.toList) (by simp) cue hcue
  constructor
  · rw [he, asString_toList]
    intro hmem
    have h1 : '\n' ∈ joinSp ls := mem_of_mem_trimL hmem
    rcases mem_joinSp h1 with h | ⟨l, hl, hcl⟩
    · exact absurd h (by decide)
    · exact (hls l hl).2.2 hcl
  · rw [he, asString_toList, trimL_trimL]

theorem claim_C10_witness :
    '\n' ∉ (Cue.text ⟨some 1, some 2, "Hello"⟩).toList ∧
      trimL (Cue.text ⟨some 1, some 2, "Hello"⟩).toList =
        (Cue.text ⟨some 1, some 2, "Hello"⟩).toList :=
  claim_C10 vttDemo ⟨some 1, some 2, "Hello"⟩ (by decide)

end Notflix
